import Mathlib

/-!
Verification development for the SafeEdit text-editing engine.

Strings are embedded as `List Char` (`Str`); offsets are character
positions, which coincide with the source's byte offsets on the ASCII
inputs exercised here.  Pure functions are translated from the Rust
source (`commands.rs`, `transform.rs`, `patch.rs`, `diff.rs`,
`main.rs`); external library behaviour (the regex engine on escaped
literal patterns, the `similar` line differ, the `diffy` hunk applier)
is modelled from the specification where noted.
-/

abbrev Str := List Char

/-- Slice `s[a..b]` of a string, char-indexed (source: `&text[a..b]`). -/
def sliceStr (s : Str) (a b : Nat) : Str := (s.drop a).take (b - a)

/-- Auxiliary for substring search: first index `≥ i` (the running
counter) at which `pat` is a prefix of the remaining suffix. -/
def findSubAux (pat : Str) : Str → Nat → Option Nat
  | [], i => if pat.isPrefixOf ([] : Str) then some i else none
  | c :: rest, i =>
    if pat.isPrefixOf (c :: rest) then some i else findSubAux pat rest (i + 1)

/-- Rust `str::find`: index of the first occurrence of `pat` in `s`. -/
def strFind (s pat : Str) : Option Nat := findSubAux pat s 0

/-- Rust `str::contains` for a multi-character needle. -/
def containsSub (pat s : Str) : Bool := (strFind s pat).isSome

/-- Rust `str::rfind('\n')`: index of the last newline in `s`. -/
def rfindNl : Str → Option Nat
  | [] => none
  | c :: rest =>
    match rfindNl rest with
    | some i => some (i + 1)
    | none => if c = '\n' then some 0 else none

/-- Rust `str::split_inclusive('\n')`: segments each keeping their
terminating newline; the final segment may lack one; empty input gives
no segments. -/
def splitInclusiveNl (s : Str) : List Str :=
  s.foldr
    (fun c acc =>
      if c = '\n' then ['\n'] :: acc
      else
        match acc with
        | [] => [[c]]
        | seg :: segs => (c :: seg) :: segs)
    []

/-! ## Replace (src/safeedit/src/commands.rs) -/

/-- ReplaceOptions from `commands.rs`.  `pattern` is the (escaped)
literal pattern handed to the regex engine. -/
structure ReplaceOptions where
  pattern : Str
  replacement : Str
  allow_captures : Bool
  count : Option Nat
  expect : Option Nat
  after_line : Option Nat

/-- Matches of the compiled pattern, modelled from the spec: the
external regex engine applied to an escaped literal pattern yields its
non-overlapping occurrences scanned left to right (an empty pattern
matches at every position).  Returns `(start, end)` ranges.  Fuel is
the remaining scan budget. -/
def matchesFrom (text pat : Str) : Nat → Nat → List (Nat × Nat)
  | 0, _ => []
  | fuel + 1, i =>
    match findSubAux pat (text.drop i) i with
    | none => []
    | some s =>
      let nxt := if pat.isEmpty then s + 1 else s + pat.length
      (s, s + pat.length) :: matchesFrom text pat fuel nxt

/-- All matches of the literal pattern in `text`, left to right. -/
def literalMatches (text pat : Str) : List (Nat × Nat) :=
  matchesFrom text pat (text.length + 1) 0

/-- Line starts from `LineIndex::new`: offset 0 plus the offset just
after every newline character. -/
def lineStarts (text : Str) : List Nat :=
  0 :: (List.range text.length).filterMap
    (fun idx => if text.get? idx = some '\n' then some (idx + 1) else none)

/-- `LineIndex::line_at`: the source binary-searches the strictly
sorted `starts` list and maps `Ok(pos) => pos + 1`, `Err(pos) => pos`;
on a strictly sorted list both equal the number of starts `≤ offset`. -/
def line_at (starts : List Nat) (offset : Nat) : Nat :=
  starts.countP (fun s => decide (s ≤ offset))

/-- Identifier characters of a `$name` capture reference. -/
def isIdentChar (c : Char) : Bool := c.isAlphanum || c = '_'

/-- Longest identifier prefix and the remainder. -/
def spanIdent : Str → (Str × Str)
  | [] => ([], [])
  | c :: rest =>
    if isIdentChar c then
      let (n, r) := spanIdent rest
      (c :: n, r)
    else ([], c :: rest)

/-- Numeric value of a digit string. -/
def digitsToNat (s : Str) : Nat :=
  s.foldl (fun acc c => acc * 10 + (c.toNat - '0'.toNat)) 0

/-- Value of one capture reference, modelled from the spec: an escaped
literal pattern has only group 0 (the whole match); any other group or
name expands to the empty string. -/
def groupVal (matched name : Str) : Str :=
  if name.all Char.isDigit && digitsToNat name = 0 then matched else []

/-- Capture expansion of a replacement template (`Captures::expand`),
modelled from the spec for patterns without capture groups: `$$` is a
literal dollar, `$name`/`$n` (brace form included) expands via
`groupVal`, a dollar with no following name is literal. -/
def expandGo (matched : Str) (openB closeB : Char) : Nat → Str → Str
  | 0, s => s
  | _ + 1, [] => []
  | fuel + 1, '$' :: rest =>
    match rest with
    | [] => ['$']
    | '$' :: rest2 => '$' :: expandGo matched openB closeB fuel rest2
    | c :: rest2 =>
      if c = openB then
        match spanIdent rest2 with
        | (name, r) =>
          match r with
          | c2 :: r2 =>
            if c2 = closeB && name ≠ [] then
              groupVal matched name ++ expandGo matched openB closeB fuel r2
            else '$' :: expandGo matched openB closeB fuel rest
          | [] => '$' :: expandGo matched openB closeB fuel rest
      else
        match spanIdent (c :: rest2) with
        | ([], _) => '$' :: expandGo matched openB closeB fuel rest
        | (name, r) => groupVal matched name ++ expandGo matched openB closeB fuel r
  | fuel + 1, c :: rest => c :: expandGo matched openB closeB fuel rest

/-- Capture expansion entry point. -/
def expandTemplate (matched tmpl : Str) : Str :=
  expandGo matched (Char.ofNat 123) (Char.ofNat 125) (tmpl.length + 1) tmpl

/-- Main loop of `apply_replace`: walk the match list carrying the
output built so far, `last_end`, the replacement count and the
filtered-by-line count.  A `break` on the `count` limit is modelled by
returning the accumulators unchanged. -/
def replaceLoop (text : Str) (o : ReplaceOptions) (starts : Option (List Nat)) :
    List (Nat × Nat) → Str → Nat → Nat → Nat → Str × Nat × Nat × Nat
  | [], out, lastEnd, reps, filt => (out, lastEnd, reps, filt)
  | (s, e) :: rest, out, lastEnd, reps, filt =>
    let eligible : Bool :=
      match o.after_line, starts with
      | some limit, some idx => decide (line_at idx s > limit)
      | _, _ => true
    if eligible = false then
      replaceLoop text o starts rest out lastEnd reps (filt + 1)
    else if (match o.count with
             | some limit => decide (reps ≥ limit)
             | none => false) then
      (out, lastEnd, reps, filt)
    else
      let piece :=
        if o.allow_captures then expandTemplate (sliceStr text s e) o.replacement
        else o.replacement
      replaceLoop text o starts rest (out ++ sliceStr text lastEnd s ++ piece) e
        (reps + 1) filt

/-- Translation of `apply_replace` (commands.rs:63).  Zero eligible
replacements return `none` (after suggestion reporting, a print-only
side effect) before the `expect` check; otherwise the tail is appended
and a count mismatch against `expect` fails. -/
def apply_replace (text : Str) (o : ReplaceOptions) : Except String (Option Str) :=
  let starts := match o.after_line with
    | some _ => some (lineStarts text)
    | none => none
  let ms := literalMatches text o.pattern
  match replaceLoop text o starts ms [] 0 0 0 with
  | (out, lastEnd, reps, _filt) =>
    if reps = 0 then .ok none
    else
      let out := out ++ text.drop lastEnd
      match o.expect with
      | some expected =>
        if reps ≠ expected then .error "count mismatch" else .ok (some out)
      | none => .ok (some out)

/-! ## Transform pipeline (src/safeedit/src/transform.rs) -/

/-- DecodedText; decoding itself is outside these claims, so the model
carries the decoded text (claims use valid ASCII, where decode is the
identity and `had_errors` is false). -/
structure DecodedText where
  text : Str
deriving DecidableEq

/-- TransformResult from `transform.rs:13`. -/
structure TransformResult where
  decoded : DecodedText
  new_text : Str
deriving DecidableEq

/-- Translation of `run_transform` (transform.rs:18): binary entries
are skipped wholesale (returning `none`); otherwise the transformer
runs on the decoded text and `none` is passed through as "no
change". -/
def run_transform (isBinary : Bool) (text : Str)
    (transformer : Str → Except String (Option Str)) :
    Except String (Option TransformResult) :=
  if isBinary then .ok none
  else
    match transformer text with
    | .error e => .error e
    | .ok none => .ok none
    | .ok (some new_text) => .ok (some ⟨⟨text⟩, new_text⟩)

/-! ## Block (src/safeedit/src/commands.rs:133) -/

inductive BlockMode where
  | Insert
  | Replace
deriving DecidableEq

structure BlockOptions where
  start_marker : Str
  end_marker : Str
  mode : BlockMode
  body : Str

/-- Dominant line ending of the block or document
(`preferred_line_ending`, commands.rs:218). -/
def preferred_line_ending (block doc : Str) : Str :=
  if containsSub ['\r', '\n'] block || containsSub ['\r', '\n'] doc then ['\r', '\n']
  else ['\n']

/-- Translation of `has_leading_linebreak` (commands.rs:226). -/
def has_leading_linebreak (text : Str) : Bool :=
  (['\r', '\n'] : Str).isPrefixOf text || (['\n'] : Str).isPrefixOf text

/-- Translation of `has_trailing_linebreak` (commands.rs:230). -/
def has_trailing_linebreak (text : Str) : Bool :=
  (['\r', '\n'] : Str).isSuffixOf text ||
    ((['\n'] : Str).isSuffixOf text && !(['\r', '\n'] : Str).isSuffixOf text)

/-- Translation of `normalize_line_endings_to` (commands.rs:234): each
CRLF pair, lone CR or lone LF becomes `newline`. -/
def normalize_line_endings_to (input newline : Str) : Str :=
  match input with
  | [] => []
  | '\r' :: '\n' :: rest => newline ++ normalize_line_endings_to rest newline
  | '\r' :: rest => newline ++ normalize_line_endings_to rest newline
  | '\n' :: rest => newline ++ normalize_line_endings_to rest newline
  | c :: rest => c :: normalize_line_endings_to rest newline

/-- Translation of `restore_line_endings` (commands.rs:255). -/
def restore_line_endings (text newline : Str) : Str :=
  if newline = ['\n'] then text
  else text.flatMap (fun c => if c = '\n' then newline else [c])

/-- Translation of `needs_indent` (commands.rs:263). -/
def needs_indent (line indent : Str) : Bool :=
  if indent.isEmpty then false
  else
    match line with
    | [] => false
    | ' ' :: _ => false
    | '\t' :: _ => false
    | _ :: _ => true

/-- Translation of `block_indent` (commands.rs:274): indentation of the
start marker's line. -/
def block_indent (text : Str) (marker_start : Nat) : Str :=
  let before := text.take marker_start
  let line_start := match rfindNl before with
    | some idx => idx + 1
    | none => 0
  (sliceStr text line_start marker_start).takeWhile (fun c => c = ' ' || c = '\t')

/-- Translation of `extract_trailing_indent` (commands.rs:285). -/
def extract_trailing_indent (existing : Str) : Str :=
  match rfindNl existing with
  | some pos =>
    let tail := existing.drop (pos + 1)
    if !tail.isEmpty && tail.all (fun c => c = ' ' || c = '\t') then tail else []
  | none => []

/-- Loop body of `adjust_block_body`: re-indent each inclusive line
chunk. -/
def reindentChunks (indent : Str) : List Str → Str
  | [] => []
  | segment :: rest =>
    let stripped :=
      if segment ≠ [] ∧ segment.getLast? = some '\n' then
        (segment.dropLast, true)
      else (segment, false)
    match stripped with
    | (line, has_newline) =>
      (if needs_indent line indent then indent else []) ++ line ++
        (if has_newline then ['\n'] else []) ++ reindentChunks indent rest

/-- Translation of `adjust_block_body` (commands.rs:171). -/
def adjust_block_body (existing requested full_text indent : Str) : Str :=
  let newline := preferred_line_ending existing full_text
  let body := normalize_line_endings_to requested ['\n']
  let body := if has_leading_linebreak existing && !(body.head? = some '\n') then
      '\n' :: body
    else body
  let body := if has_trailing_linebreak existing && !(body.getLast? = some '\n') then
      body ++ ['\n']
    else body
  let trailing_indent := extract_trailing_indent existing
  let chunks := splitInclusiveNl body
  let chunks := if chunks.isEmpty then [body] else chunks
  let rebuilt := reindentChunks indent chunks
  let rebuilt :=
    if trailing_indent ≠ [] then
      let needle := '\n' :: trailing_indent
      if !needle.isSuffixOf rebuilt then
        (if rebuilt.getLast? = some '\n' then rebuilt else rebuilt ++ ['\n']) ++
          trailing_indent
      else rebuilt
    else rebuilt
  restore_line_endings rebuilt newline

/-- Rust Unicode `char::is_whitespace`, modelled on its ASCII
fragment. -/
def is_whitespace (c : Char) : Bool :=
  c = ' ' || c = '\t' || c = '\n' || c = '\r' ||
    c = Char.ofNat 11 || c = Char.ofNat 12

/-- Rust `str::trim`. -/
def trimAscii (s : Str) : Str :=
  ((s.dropWhile is_whitespace).reverse.dropWhile is_whitespace).reverse

/-- Marker positions of a block operation: `(after_start, end_pos)`
when both markers are found, mirroring the two `find` calls of
`apply_block`. -/
def blockParts (text : Str) (o : BlockOptions) : Option (Nat × Nat) :=
  match strFind text o.start_marker with
  | none => none
  | some start_pos =>
    let after_start := start_pos + o.start_marker.length
    match strFind (text.drop after_start) o.end_marker with
    | none => none
    | some rel_end => some (after_start, after_start + rel_end)

/-- Existing region between the markers, when found. -/
def blockExisting (text : Str) (o : BlockOptions) : Option Str :=
  (blockParts text o).map (fun p => sliceStr text p.1 p.2)

/-- Rebuilt (desired) region, when the markers are found. -/
def blockDesired (text : Str) (o : BlockOptions) : Option Str :=
  (blockParts text o).map (fun p =>
    adjust_block_body (sliceStr text p.1 p.2) o.body text
      (block_indent text (p.1 - o.start_marker.length)))

/-- Translation of `apply_block` (commands.rs:133). -/
def apply_block (text : Str) (o : BlockOptions) : Except String (Option Str) :=
  match strFind text o.start_marker with
  | none => .error "start marker not found"
  | some start_pos =>
    let after_start := start_pos + o.start_marker.length
    match strFind (text.drop after_start) o.end_marker with
    | none => .error "end marker not found after start marker"
    | some rel_end =>
      let end_pos := after_start + rel_end
      let existing := sliceStr text after_start end_pos
      if o.mode = BlockMode.Insert && !(trimAscii existing).isEmpty then
        .error "insert mode requires the block region to be empty"
      else
        let indent := block_indent text start_pos
        let desired := adjust_block_body existing o.body text indent
        if existing = desired then .ok none
        else
          let new_text := text.take after_start ++ desired ++ text.drop end_pos
          if new_text = text then .ok none else .ok (some new_text)

/-! ## Rename case handling (src/safeedit/src/commands.rs:512) -/

/-- Rust `char::is_uppercase`, ASCII fragment. -/
def is_uppercase (c : Char) : Bool := c.isUpper

/-- Rust `char::is_lowercase`, ASCII fragment. -/
def is_lowercase (c : Char) : Bool := c.isLower

/-- Rust `char::is_alphabetic`, ASCII fragment (`isUpper || isLower`,
so an uppercase character is always alphabetic, as in Unicode). -/
def is_alphabetic (c : Char) : Bool := is_uppercase c || is_lowercase c

/-- Rust `str::to_uppercase`, ASCII fragment. -/
def to_uppercase (s : Str) : Str := s.map Char.toUpper

/-- Rust `str::to_lowercase`, ASCII fragment. -/
def to_lowercase (s : Str) : Str := s.map Char.toLower

inductive CaseKind where
  | Upper
  | Lower
  | Capitalized
  | Mixed
deriving DecidableEq

/-- Loop of `detect_case_kind` (commands.rs:541): fold over the
enumerated characters carrying `(has_alpha, all_upper, all_lower)`. -/
def detectCaseLoop : Nat → Str → Bool → Bool → Bool → Bool × Bool × Bool
  | _, [], ha, au, al => (ha, au, al)
  | idx, c :: rest, ha, au, al =>
    if is_alphabetic c then
      let (au, al) :=
        if is_uppercase c then (au, false)
        else if is_lowercase c then (false, al)
        else (false, false)
      let al := if idx > 0 && is_uppercase c then false else al
      detectCaseLoop (idx + 1) rest true au al
    else detectCaseLoop (idx + 1) rest ha au al

/-- Translation of `detect_case_kind` (commands.rs:541). -/
def detect_case_kind (text : Str) : CaseKind :=
  match detectCaseLoop 0 text false true true with
  | (has_alpha, all_upper, all_lower) =>
    if !has_alpha then CaseKind.Mixed
    else if all_upper then CaseKind.Upper
    else if all_lower then CaseKind.Lower
    else if (match text.head? with
             | some c => is_uppercase c
             | none => false) &&
            (text.drop 1).all (fun c => !is_uppercase c) then
      CaseKind.Capitalized
    else CaseKind.Mixed

/-- Translation of `capitalize` (commands.rs:521). -/
def capitalize (value : Str) : Str :=
  match value with
  | [] => []
  | c :: rest => Char.toUpper c :: rest.map Char.toLower

/-- Translation of `adjust_case` (commands.rs:512). -/
def adjust_case (source target : Str) : Str :=
  match detect_case_kind source with
  | CaseKind.Upper => to_uppercase target
  | CaseKind.Lower => to_lowercase target
  | CaseKind.Capitalized => capitalize target
  | CaseKind.Mixed => target

/-! ## Patch classification (src/safeedit/src/patch.rs:141) -/

inductive PatchKind where
  | Modify
  | Create
  | Delete
  | Rename
deriving DecidableEq

/-- Rust `str::trim_matches('"')`: strip all leading and trailing
double quotes. -/
def trimQuotes (s : Str) : Str :=
  ((s.dropWhile (fun c => c = '"')).reverse.dropWhile (fun c => c = '"')).reverse

/-- Rust `str::trim_start_matches("./")`: strip every leading `./`. -/
def trimDotSlash : Str → Str
  | '.' :: '/' :: rest => trimDotSlash rest
  | s => s

/-- Translation of `label_to_path` (patch.rs:161).  A path is `none`
(absent) for `/dev/null` or when nothing is left after trimming
whitespace, surrounding quotes, one `a/` or `b/` prefix and leading
`./` segments. -/
def label_to_path (label : Str) : Option Str :=
  let trimmed := trimAscii label
  if trimmed = ['/', 'd', 'e', 'v', '/', 'n', 'u', 'l', 'l'] then none
  else
    let unquoted := trimQuotes trimmed
    let stripped :=
      if (['a', '/'] : Str).isPrefixOf unquoted then unquoted.drop 2
      else if (['b', '/'] : Str).isPrefixOf unquoted then unquoted.drop 2
      else unquoted
    let cleaned := trimDotSlash stripped
    if cleaned.isEmpty then none else some cleaned

/-- Translation of `classify_paths` (patch.rs:141). -/
def classify_paths (old_label new_label : Str) :
    Except String (PatchKind × Option Str × Option Str) :=
  match label_to_path old_label, label_to_path new_label with
  | some old, some new =>
    if old = new then .ok (PatchKind.Modify, some old, some new)
    else .ok (PatchKind.Rename, some old, some new)
  | none, some new => .ok (PatchKind.Create, none, some new)
  | some old, none => .ok (PatchKind.Delete, some old, none)
  | none, none => .error "patch is missing both old and new file labels"

/-! ## Per-command stats (src/safeedit/src/main.rs) -/

structure CommandStats where
  applied : Nat
  skipped : Nat
  dry_run : Nat
  no_op : Nat
deriving DecidableEq

def CommandStats.default : CommandStats := ⟨0, 0, 0, 0⟩

inductive ApprovalDecision where
  | Apply
  | ApplyAll
  | Skip
  | Quit
deriving DecidableEq

/-- Stats update of one `handle_replace` loop iteration
(main.rs:159-278): a `run_replace` result of `None` (which includes
binary entries, skipped inside `run_transform`) increments `no_op`;
otherwise dry-run, approval decisions and writes update the other
counters.  Prompting and I/O are abstracted into the `decision`
argument. -/
def handle_replace_entry (isBinary : Bool) (text : Str) (o : ReplaceOptions)
    (applyMode applyAll : Bool) (decision : ApprovalDecision)
    (stats : CommandStats) : Except String CommandStats :=
  match run_transform isBinary text (fun t => apply_replace t o) with
  | .error e => .error e
  | .ok none => .ok { stats with no_op := stats.no_op + 1 }
  | .ok (some _) =>
    if !applyMode then .ok { stats with dry_run := stats.dry_run + 1 }
    else
      match (if applyAll then ApprovalDecision.Apply else decision) with
      | ApprovalDecision.Apply => .ok { stats with applied := stats.applied + 1 }
      | ApprovalDecision.ApplyAll => .ok { stats with applied := stats.applied + 1 }
      | ApprovalDecision.Skip => .ok { stats with skipped := stats.skipped + 1 }
      | ApprovalDecision.Quit => .ok { stats with skipped := stats.skipped + 1 }

/-! ## Newline-preserving patch application (src/safeedit/src/main.rs:2519) -/

inductive LineEndingStyle where
  | Lf
  | Crlf
  | Cr
deriving DecidableEq

/-- Translation of `detect_line_ending_style` (main.rs:2526). -/
def detect_line_ending_style (text : Str) : LineEndingStyle :=
  if containsSub ['\r', '\n'] text then LineEndingStyle.Crlf
  else if text.contains '\r' then LineEndingStyle.Cr
  else LineEndingStyle.Lf

/-- Rewriting loop of `normalize_to_lf`: CRLF or lone CR becomes LF. -/
def normalizeToLfGo : Str → Str
  | [] => []
  | '\r' :: '\n' :: rest => '\n' :: normalizeToLfGo rest
  | '\r' :: rest => '\n' :: normalizeToLfGo rest
  | c :: rest => c :: normalizeToLfGo rest

/-- Translation of `normalize_to_lf` (main.rs:2536). -/
def normalize_to_lf (text : Str) : Str :=
  if !text.contains '\r' then text else normalizeToLfGo text

/-- Translation of `restore_from_lf` (main.rs:2556). -/
def restore_from_lf (text : Str) (style : LineEndingStyle) : Str :=
  match style with
  | LineEndingStyle.Lf => text
  | LineEndingStyle.Crlf => text.flatMap (fun c => if c = '\n' then ['\r', '\n'] else [c])
  | LineEndingStyle.Cr => text.map (fun c => if c = '\n' then '\r' else c)

/-- Unified-diff hunk lines, modelled from the spec (the applier is the
external diffy crate): context, removed and added lines, each stored
with its terminating newline as produced by `split_inclusive`. -/
inductive PatchLine where
  | ctx (s : Str)
  | removed (s : Str)
  | added (s : Str)
deriving DecidableEq

/-- Raw text of a hunk line. -/
def PatchLine.str : PatchLine → Str
  | .ctx s => s
  | .removed s => s
  | .added s => s

/-- One hunk: 1-based start line on the old side plus its lines. -/
structure Hunk where
  oldStart : Nat
  lines : List PatchLine
deriving DecidableEq

/-- Number of old-side lines a hunk consumes. -/
def hunkOldLen (h : Hunk) : Nat :=
  h.lines.countP (fun l => match l with
    | PatchLine.ctx _ => true
    | PatchLine.removed _ => true
    | PatchLine.added _ => false)

/-- Apply one hunk's lines against the base lines, modelled from the
spec: exact context matching, no fuzzy offset search.  Returns the
emitted lines and the remaining base lines. -/
def applyHunkLines : List PatchLine → List Str → Option (List Str × List Str)
  | [], base => some ([], base)
  | PatchLine.ctx s :: rest, b :: bs =>
    if b = s then (applyHunkLines rest bs).map (fun p => (s :: p.1, p.2)) else none
  | PatchLine.ctx _ :: _, [] => none
  | PatchLine.removed s :: rest, b :: bs =>
    if b = s then applyHunkLines rest bs else none
  | PatchLine.removed _ :: _, [] => none
  | PatchLine.added s :: rest, base =>
    (applyHunkLines rest base).map (fun p => (s :: p.1, p.2))

/-- Apply hunks sequentially, modelled from the spec; `pos` is the
1-based number of the next unconsumed old line. -/
def applyHunksGo : List Hunk → Nat → List Str → Option (List Str)
  | [], _, base => some base
  | h :: hs, pos, base =>
    let skip := h.oldStart - pos
    let pre := base.take skip
    match applyHunkLines h.lines (base.drop skip) with
    | none => none
    | some (emitted, remaining) =>
      (applyHunksGo hs (h.oldStart + hunkOldLen h) remaining).map
        (fun out => pre ++ emitted ++ out)

/-- External `diffy::apply`, modelled from the spec: split the base
into newline-inclusive lines, apply the hunks with exact context
matching, and join. -/
def apply_patch (base : Str) (hunks : List Hunk) : Option Str :=
  (applyHunksGo hunks 1 (splitInclusiveNl base)).map List.flatten

/-- Translation of `apply_patch_preserving_newlines` (main.rs:2564). -/
def apply_patch_preserving_newlines (text : Str) (hunks : List Hunk) :
    Option Str :=
  let style := detect_line_ending_style text
  let normalized := normalize_to_lf text
  (apply_patch normalized hunks).map (fun patched => restore_from_lf patched style)

/-! ## Line diff and span summary (src/safeedit/src/diff.rs:345)

The line differ is the external `similar` crate; it is modelled from
the spec as a Myers-style minimal line diff: a longest common
subsequence of the line lists, with the maximal changed run between
two matched lines grouped into a single op (`Replace` when both sides
are nonempty, else `Delete`/`Insert`), exactly the grouped op stream
`TextDiff::ops` exposes. -/

/-- Longest common subsequence with fuel (naive, minimal). -/
def lcsF : Nat → List Str → List Str → List Str
  | 0, _, _ => []
  | _ + 1, [], _ => []
  | _ + 1, _, [] => []
  | fuel + 1, a :: as_, b :: bs =>
    if a = b then a :: lcsF fuel as_ bs
    else
      let l1 := lcsF fuel as_ (b :: bs)
      let l2 := lcsF fuel (a :: as_) bs
      if l2.length > l1.length then l2 else l1

/-- Longest common subsequence of two line lists. -/
def lcs (a b : List Str) : List Str :=
  lcsF (a.length + b.length + 1) a b

/-- Split a list at the first occurrence of `m`: the prefix before it
and the suffix starting with it (suffix empty when absent). -/
def splitAtFirst (m : Str) : List Str → List Str × List Str
  | [] => ([], [])
  | x :: xs =>
    if x = m then ([], x :: xs)
    else
      let (p, s) := splitAtFirst m xs
      (x :: p, s)

inductive DiffTag where
  | Equal
  | Delete
  | Insert
  | Replace
deriving DecidableEq

/-- One grouped diff op with its half-open old- and new-side line
ranges (`DiffOp` of the similar crate). -/
structure DiffOp where
  tag : DiffTag
  oldStart : Nat
  oldEnd : Nat
  newStart : Nat
  newEnd : Nat
deriving DecidableEq

/-- The single changed-run op between two matched lines: `k` old lines
and `l` new lines starting at `(i, j)`. -/
def emitChange (i j k l : Nat) : List DiffOp :=
  if k > 0 && l > 0 then [⟨DiffTag.Replace, i, i + k, j, j + l⟩]
  else if k > 0 then [⟨DiffTag.Delete, i, i + k, j, j⟩]
  else if l > 0 then [⟨DiffTag.Insert, i, i, j, j + l⟩]
  else []

/-- Walk the two line lists along their common subsequence, emitting
grouped ops; `i`, `j` are the current old/new line indices. -/
def opsWalk : List Str → List Str → List Str → Nat → Nat → List DiffOp
  | [], old, new, i, j => emitChange i j old.length new.length
  | m :: ms, old, new, i, j =>
    let po := splitAtFirst m old
    let pn := splitAtFirst m new
    match po.2, pn.2 with
    | _ :: oRest, _ :: nRest =>
      emitChange i j po.1.length pn.1.length ++
        ⟨DiffTag.Equal, i + po.1.length, i + po.1.length + 1,
          j + pn.1.length, j + pn.1.length + 1⟩ ::
          opsWalk ms oRest nRest (i + po.1.length + 1) (j + pn.1.length + 1)
    | _, _ => emitChange i j old.length new.length

/-- Grouped op stream of the modelled line diff. -/
def diffOps (old new : List Str) : List DiffOp :=
  opsWalk (lcs old new) old new 0 0

inductive LineSpanKind where
  | Modified
  | Added
deriving DecidableEq

/-- LineSpan from `diff.rs`: 1-based inclusive line range.  The source
field `end` is a Lean keyword and is embedded as `endIdx`. -/
structure LineSpan where
  kind : LineSpanKind
  start : Nat
  endIdx : Nat
deriving DecidableEq

/-- Span pushed for one diff op in the `collect_line_spans` loop:
delete/replace ops yield a Modified span over their old-side range,
insert ops an Added span over their new-side range, equal ops nothing;
empty ranges are dropped by the `start <= end` guard. -/
def spanOfOp (op : DiffOp) : Option LineSpan :=
  match op.tag with
  | DiffTag.Equal => none
  | DiffTag.Delete =>
    if op.oldStart + 1 ≤ op.oldEnd then
      some ⟨LineSpanKind.Modified, op.oldStart + 1, op.oldEnd⟩
    else none
  | DiffTag.Replace =>
    if op.oldStart + 1 ≤ op.oldEnd then
      some ⟨LineSpanKind.Modified, op.oldStart + 1, op.oldEnd⟩
    else none
  | DiffTag.Insert =>
    if op.newStart + 1 ≤ op.newEnd then
      some ⟨LineSpanKind.Added, op.newStart + 1, op.newEnd⟩
    else none

/-- Translation of `collect_line_spans` (diff.rs:345): the spans
pushed per op, in op order. -/
def collect_line_spans (old new : Str) : List LineSpan :=
  (diffOps (splitInclusiveNl old) (splitInclusiveNl new)).filterMap spanOfOp

/-- The claim's predicate on a span list: every two spans' inclusive
`[start, endIdx]` ranges are disjoint, and starts are ascending. -/
def spansDisjointSortedB : List LineSpan → Bool
  | [] => true
  | a :: rest =>
    rest.all (fun b => decide (a.endIdx < b.start ∨ b.endIdx < a.start)) &&
      (match rest with
       | [] => true
       | b :: _ => decide (a.start ≤ b.start)) &&
      spansDisjointSortedB rest

/-! ## Auxiliary definitions for the statements -/

/-- String literals as `Str`. -/
def chars (s : String) : Str := s.toList

/-- Number of replacements `apply_replace` performs (the `replacements`
counter at loop exit). -/
def replaceReps (text : Str) (o : ReplaceOptions) : Nat :=
  (replaceLoop text o
    (match o.after_line with
     | some _ => some (lineStarts text)
     | none => none)
    (literalMatches text o.pattern) [] 0 0 0).2.2.1

/-- Spans of one kind, in list order. -/
def spansOfKind (k : LineSpanKind) (l : List LineSpan) : List LineSpan :=
  l.filter (fun sp => decide (sp.kind = k))

/-- Monotonicity of a grouped op stream starting at old index `i` and
new index `j`: ranges are well formed and both sides advance. -/
def opsMono : Nat → Nat → List DiffOp → Prop
  | _, _, [] => True
  | i, j, op :: rest =>
    i ≤ op.oldStart ∧ op.oldStart ≤ op.oldEnd ∧ j ≤ op.newStart ∧
      op.newStart ≤ op.newEnd ∧ opsMono op.oldEnd op.newEnd rest

/-- The hunk of the CRLF example patch: context `alpha`, remove
`beta`, add `beta2`. -/
def crlfHunk : Hunk :=
  ⟨1, [PatchLine.ctx (chars "alpha\n"), PatchLine.removed (chars "beta\n"),
       PatchLine.added (chars "beta2\n")]⟩

/-! ## Supporting lemmas -/

/-- A block result is produced only when the rebuilt text differs from
the input (commands.rs:164 guard). -/
theorem apply_block_some_ne {text : Str} {o : BlockOptions} {nt : Str}
    (h : apply_block text o = .ok (some nt)) : nt ≠ text := by
  unfold apply_block at h
  cases h1 : strFind text o.start_marker with
  | none => rw [h1] at h; exact absurd h (by simp)
  | some start_pos =>
    rw [h1] at h
    dsimp only at h
    cases h2 : strFind (text.drop (start_pos + o.start_marker.length))
        o.end_marker with
    | none => rw [h2] at h; exact absurd h (by simp)
    | some rel_end =>
      rw [h2] at h
      dsimp only at h
      split_ifs at h with hins heq hnew
      case _ => exact absurd h (by simp)
      case _ => exact absurd h (by simp)
      case _ =>
        simp only [Except.ok.injEq, Option.some.injEq] at h
        subst h
        simp only [List.append_assoc] at hnew ⊢
        exact hnew

/-! ## Claim theorems -/

/-- C1 counterexample: Replace of literal `a` by `a` on the text `a`
makes one replacement, so `run_transform` produces a `TransformResult`
whose `new_text` equals `decoded.text`, contradicting the claimed
invariant. -/
theorem C1_equal_result_counterexample :
    run_transform false (chars "a")
        (fun t => apply_replace t ⟨chars "a", chars "a", false, none, none, none⟩)
      = .ok (some ⟨⟨chars "a"⟩, chars "a"⟩) ∧
    (⟨⟨chars "a"⟩, chars "a"⟩ : TransformResult).new_text
      = (⟨⟨chars "a"⟩, chars "a"⟩ : TransformResult).decoded.text :=
  ⟨rfl, rfl⟩

/-- C1 (amended): for the Block operation the invariant does hold:
whenever `run_transform` produces a `TransformResult`, its `new_text`
differs from `decoded.text`. -/
theorem C1_block_result_differs :
    ∀ (isBinary : Bool) (text : Str) (o : BlockOptions) (r : TransformResult),
      run_transform isBinary text (fun t => apply_block t o) = .ok (some r) →
      r.new_text ≠ r.decoded.text := by
  intro ib text o r h
  unfold run_transform at h
  split at h
  · exact absurd h (by simp)
  · dsimp only at h
    cases hb : apply_block text o with
    | error e => rw [hb] at h; exact absurd h (by simp)
    | ok oo =>
      rw [hb] at h
      cases oo with
      | none => exact absurd h (by simp)
      | some nt =>
        simp only [Except.ok.injEq, Option.some.injEq] at h
        rw [← h]
        exact apply_block_some_ne hb

/-- C1 witness: the Block example produces a result and its `new_text`
differs from the decoded text. -/
theorem C1_block_result_differs_witness :
    (⟨⟨chars "/*start*/\nold\n/*end*/"⟩,
      chars "/*start*/\nnew\n/*end*/"⟩ : TransformResult).new_text
      ≠ (⟨⟨chars "/*start*/\nold\n/*end*/"⟩,
          chars "/*start*/\nnew\n/*end*/"⟩ : TransformResult).decoded.text :=
  C1_block_result_differs false (chars "/*start*/\nold\n/*end*/")
    ⟨chars "/*start*/", chars "/*end*/", BlockMode.Replace, chars "\nnew\n"⟩
    ⟨⟨chars "/*start*/\nold\n/*end*/"⟩, chars "/*start*/\nnew\n/*end*/"⟩ rfl

/-- C2 counterexample: with `expect = 1` and a pattern that never
matches, `apply_replace` returns "no change" (`none`) instead of the
claimed count-mismatch failure: the zero-replacement early return
precedes the `expect` check. -/
theorem C2_zero_matches_no_error :
    apply_replace (chars "abc") ⟨chars "zzz", chars "x", false, none, some 1, none⟩
      = .ok none :=
  rfl

/-- C2 (amended): when `expect` is set and Replace succeeds with a
produced result (at least one eligible replacement), the number of
replacements equals `expect`; a zero-replacement run instead returns
"no change" without consulting `expect`. -/
theorem C2_expect_checked_on_success :
    ∀ (text : Str) (o : ReplaceOptions) (n : Nat) (out : Str),
      o.expect = some n → apply_replace text o = .ok (some out) →
      replaceReps text o = n := by
  intro text o n out he h
  unfold apply_replace at h
  unfold replaceReps
  dsimp only at h
  rcases hr : replaceLoop text o
      (match o.after_line with
       | some _ => some (lineStarts text)
       | none => none)
      (literalMatches text o.pattern) [] 0 0 0 with ⟨o1, le, reps, filt⟩
  rw [hr] at h
  simp only at h
  split_ifs at h with h0
  · exact absurd h (by simp)
  · rw [he] at h
    simp only at h
    split_ifs at h with hne
    exact Classical.not_not.mp hne

/-- C2 witness: Replace of `a` by `b` on `aa` with `expect = 2`
produces a result and indeed made exactly 2 replacements. -/
theorem C2_expect_checked_on_success_witness :
    replaceReps (chars "aa") ⟨chars "a", chars "b", false, none, some 2, none⟩ = 2 :=
  C2_expect_checked_on_success (chars "aa")
    ⟨chars "a", chars "b", false, none, some 2, none⟩ 2 (chars "bb") rfl rfl

/-- C4: the claim is right and the code is wrong.  In the replace
pipeline a binary entry is skipped by `run_transform` (which prints
"skipping ... (suspected binary file)"), but `handle_replace` counts
the resulting `None` under `no_op`, not `skipped` — the `skipped`
counter is untouched, diverging from the spec (the normalize handler,
main.rs:1631, records binary entries as `skipped`).  This theorem
evaluates the stats update at a binary entry. -/
theorem C4_binary_entry_counted_no_op :
    ∀ (text : Str) (o : ReplaceOptions) (applyMode applyAll : Bool)
      (d : ApprovalDecision) (stats : CommandStats),
      handle_replace_entry true text o applyMode applyAll d stats
        = .ok { stats with no_op := stats.no_op + 1 } := by
  intro text o am aa d stats
  rfl

/-- C8: classification is total on label pairs except (absent, absent):
both paths present and equal gives Modify, unequal gives Rename, only
the new path gives Create, only the old gives Delete, neither fails;
and classify(`/dev/null`, `b/new.rs`) is Create with new path
`new.rs`. -/
theorem C8_classify_total :
    ∀ old_label new_label : Str,
      (match label_to_path old_label, label_to_path new_label with
       | some o, some n =>
         classify_paths old_label new_label
           = .ok ((if o = n then PatchKind.Modify else PatchKind.Rename),
               some o, some n)
       | none, some n =>
         classify_paths old_label new_label = .ok (PatchKind.Create, none, some n)
       | some o, none =>
         classify_paths old_label new_label = .ok (PatchKind.Delete, some o, none)
       | none, none => ∃ e, classify_paths old_label new_label = .error e) ∧
      classify_paths (chars "/dev/null") (chars "b/new.rs")
        = .ok (PatchKind.Create, none, some (chars "new.rs")) := by
  intro ol nl
  refine ⟨?_, rfl⟩
  cases h1 : label_to_path ol <;> cases h2 : label_to_path nl <;>
    simp only [classify_paths, h1, h2]
  case none.none => exact ⟨_, rfl⟩
  case some.some o n => split_ifs with heq <;> simp [heq]

/-- C9: a label is treated as absent beyond `/dev/null`: `a/` is not
`/dev/null` yet strips to an empty path, so classify(`a/`, `b/x`)
yields Create with path `x`, and a pair of non-`/dev/null` labels that
both strip to empty still fails. -/
theorem C9_label_absent_beyond_devnull :
    label_to_path (chars "a/") = none ∧
    chars "a/" ≠ chars "/dev/null" ∧
    classify_paths (chars "a/") (chars "b/x")
      = .ok (PatchKind.Create, none, some (chars "x")) ∧
    classify_paths (chars "a/") (chars "./")
      = .error "patch is missing both old and new file labels" :=
  ⟨rfl, by decide, rfl, rfl⟩

/-- The case-detection loop leaves its state untouched on a string
with no alphabetic characters. -/
theorem detectCaseLoop_no_alpha :
    ∀ (s : Str) (idx : Nat) (ha au al : Bool),
      (∀ c ∈ s, is_alphabetic c = false) →
      detectCaseLoop idx s ha au al = (ha, au, al) := by
  intro s
  induction s with
  | nil => intro idx ha au al _; rfl
  | cons c rest ih =>
    intro idx ha au al h
    unfold detectCaseLoop
    rw [h c (List.mem_cons_self c rest)]
    simp only [Bool.false_eq_true, if_false]
    exact ih (idx + 1) ha au al (fun d hd => h d (List.mem_cons_of_mem c hd))

/-- C10: in case-aware Rename, a match with no alphabetic characters
is classified Mixed (replacement inserted verbatim), and a
single-character uppercase match is classified ALL-UPPER (whole
replacement uppercased), not Capitalized. -/
theorem C10_case_kind_edges :
    (∀ s t : Str, (∀ c ∈ s, is_alphabetic c = false) →
      detect_case_kind s = CaseKind.Mixed ∧ adjust_case s t = t) ∧
    (∀ (c : Char) (t : Str), is_uppercase c = true →
      detect_case_kind [c] = CaseKind.Upper ∧
        adjust_case [c] t = to_uppercase t) := by
  constructor
  · intro s t h
    have hd : detect_case_kind s = CaseKind.Mixed := by
      unfold detect_case_kind
      rw [detectCaseLoop_no_alpha s 0 false true true h]
      rfl
    exact ⟨hd, by unfold adjust_case; rw [hd]⟩
  · intro c t h
    have halpha : is_alphabetic c = true := by
      unfold is_alphabetic
      rw [h, Bool.true_or]
    have hd : detect_case_kind [c] = CaseKind.Upper := by
      unfold detect_case_kind detectCaseLoop
      rw [halpha, h]
      simp only [Bool.true_and, if_true]
      rfl
    exact ⟨hd, by unfold adjust_case; rw [hd]⟩

/-- C10 witness: `123` is Mixed and kept verbatim; the single
uppercase character `C` is ALL-UPPER and uppercases the whole
replacement. -/
theorem C10_case_kind_edges_witness :
    (detect_case_kind (chars "123") = CaseKind.Mixed ∧
      adjust_case (chars "123") (chars "x") = chars "x") ∧
    (detect_case_kind ['C'] = CaseKind.Upper ∧
      adjust_case ['C'] (chars "bar") = to_uppercase (chars "bar")) :=
  ⟨C10_case_kind_edges.1 (chars "123") (chars "x") (by decide),
    C10_case_kind_edges.2 'C' (chars "bar") (by decide)⟩

/-- Splitting a string at a region's bounds and reassembling restores
the string. -/
theorem take_slice_drop (text : Str) (a r : Nat) :
    (text.take a ++ sliceStr text a (a + r)) ++ text.drop (a + r) = text := by
  unfold sliceStr
  rw [Nat.add_sub_cancel_left]
  have hd : text.drop (a + r) = (text.drop a).drop r := by
    rw [List.drop_drop, Nat.add_comm]
  rw [List.append_assoc, hd, List.take_append_drop, List.take_append_drop]

/-- C6: whenever Block succeeds, it returns "no change" exactly when
the rebuilt region is textually identical to the existing region. -/
theorem C6_block_no_change_iff :
    ∀ (text : Str) (o : BlockOptions) (out : Option Str),
      apply_block text o = .ok out →
      (out = none ↔ blockDesired text o = blockExisting text o) := by
  intro text o out h
  unfold apply_block at h
  cases h1 : strFind text o.start_marker with
  | none => rw [h1] at h; exact absurd h (by simp)
  | some start_pos =>
    rw [h1] at h
    dsimp only at h
    cases h2 : strFind (text.drop (start_pos + o.start_marker.length))
        o.end_marker with
    | none => rw [h2] at h; exact absurd h (by simp)
    | some rel_end =>
      rw [h2] at h
      dsimp only at h
      have hparts : blockParts text o
          = some (start_pos + o.start_marker.length,
              start_pos + o.start_marker.length + rel_end) := by
        simp only [blockParts, h1, h2]
      have hex : blockExisting text o
          = some (sliceStr text (start_pos + o.start_marker.length)
              (start_pos + o.start_marker.length + rel_end)) := by
        unfold blockExisting
        rw [hparts]
        rfl
      have hde : blockDesired text o
          = some (adjust_block_body
              (sliceStr text (start_pos + o.start_marker.length)
                (start_pos + o.start_marker.length + rel_end))
              o.body text (block_indent text start_pos)) := by
        simp only [blockDesired, hparts, Option.map_some', Nat.add_sub_cancel]
      have hrecon : (text.take (start_pos + o.start_marker.length) ++
            sliceStr text (start_pos + o.start_marker.length)
              (start_pos + o.start_marker.length + rel_end)) ++
          text.drop (start_pos + o.start_marker.length + rel_end) = text :=
        take_slice_drop text (start_pos + o.start_marker.length) rel_end
      split_ifs at h with hins heq hnew
      · have hout : out = none := by
          injection h with h'
          exact h'.symm
        subst hout
        refine ⟨fun _ => ?_, fun _ => rfl⟩
        rw [hde, hex, ← heq]
      · have hdeseq : adjust_block_body
            (sliceStr text (start_pos + o.start_marker.length)
              (start_pos + o.start_marker.length + rel_end))
            o.body text (block_indent text start_pos)
            = sliceStr text (start_pos + o.start_marker.length)
                (start_pos + o.start_marker.length + rel_end) :=
          List.append_cancel_left
            (List.append_cancel_right (hnew.trans hrecon.symm))
        exact absurd hdeseq.symm heq
      · have hout : ∃ nt, out = some nt := by
          cases out with
          | none => exact absurd h (by simp)
          | some nt => exact ⟨nt, rfl⟩
        obtain ⟨nt, rfl⟩ := hout
        simp only [hde, hex, Option.some.injEq]
        constructor
        · intro hc
          exact absurd hc (by simp)
        · intro hc
          exact absurd hc.symm heq

/-- C6 witness: at the example input whose body equals the existing
region, Block returns "no change" and indeed the rebuilt region equals
the existing region. -/
theorem C6_block_no_change_iff_witness :
    blockDesired (chars "/*start*/\nold\n/*end*/")
        ⟨chars "/*start*/", chars "/*end*/", BlockMode.Replace, chars "\nold\n"⟩
      = blockExisting (chars "/*start*/\nold\n/*end*/")
        ⟨chars "/*start*/", chars "/*end*/", BlockMode.Replace, chars "\nold\n"⟩ :=
  (C6_block_no_change_iff (chars "/*start*/\nold\n/*end*/")
    ⟨chars "/*start*/", chars "/*end*/", BlockMode.Replace, chars "\nold\n"⟩
    none rfl).mp rfl

/-- The first three components of the replace loop do not depend on
the incoming filtered-count accumulator, which is a plain offset. -/
theorem replaceLoop_filt_shift (text : Str) (o : ReplaceOptions)
    (starts : Option (List Nat)) :
    ∀ (ms : List (Nat × Nat)) (out : Str) (le reps f r1 : Nat) (r0 : Str)
      (r2 r3 : Nat),
      replaceLoop text o starts ms out le reps 0 = (r0, r1, r2, r3) →
      replaceLoop text o starts ms out le reps f = (r0, r1, r2, f + r3) := by
  intro ms
  induction ms with
  | nil =>
    intro out le reps f r1 r0 r2 r3 h
    simp only [replaceLoop] at h ⊢
    simp only [Prod.mk.injEq] at h
    obtain ⟨rfl, rfl, rfl, rfl⟩ := h
    simp
  | cons m rest ih =>
    obtain ⟨s, e⟩ := m
    intro out le reps f r1 r0 r2 r3 h
    simp only [replaceLoop] at h ⊢
    split_ifs at h ⊢ with hel hcnt hcap
    · rcases hr0 : replaceLoop text o starts rest out le reps 0 with ⟨a, b, c, d⟩
      have h1 := ih out le reps 1 b a c d hr0
      rw [Nat.zero_add] at h
      rw [h1] at h
      simp only [Prod.mk.injEq] at h
      obtain ⟨rfl, rfl, rfl, rfl⟩ := h
      have hf := ih out le reps (f + 1) b a c d hr0
      rw [hf]
      have heq2 : f + 1 + d = f + (1 + d) := by omega
      rw [heq2]
    · simp only [Prod.mk.injEq] at h
      obtain ⟨rfl, rfl, rfl, rfl⟩ := h
      simp
    · exact ih _ _ _ f r1 r0 r2 r3 h
    · exact ih _ _ _ f r1 r0 r2 r3 h

/-- With no `count` limit and `after_line = some al`, the replace loop
replaces exactly the matches whose start line exceeds `al`, counts the
others in the filtered counter, and builds the same output as a run
over the eligible matches alone. -/
theorem replaceLoop_after_line (text : Str) (o : ReplaceOptions)
    (idx : List Nat) (al : Nat)
    (hcount : o.count = none) (hafter : o.after_line = some al) :
    ∀ (ms : List (Nat × Nat)) (out : Str) (le reps : Nat),
      replaceLoop text o (some idx) ms out le reps 0
        = ((replaceLoop text o (some idx)
              (ms.filter (fun m => decide (line_at idx m.1 > al)))
              out le reps 0).1,
           (replaceLoop text o (some idx)
              (ms.filter (fun m => decide (line_at idx m.1 > al)))
              out le reps 0).2.1,
           reps + ms.countP (fun m => decide (line_at idx m.1 > al)),
           ms.countP (fun m => !decide (line_at idx m.1 > al))) := by
  intro ms
  induction ms with
  | nil =>
    intro out le reps
    simp [replaceLoop]
  | cons m rest ih =>
    obtain ⟨s, e⟩ := m
    intro out le reps
    by_cases hel : line_at idx s > al
    · have hfil : ((⟨s, e⟩ :: rest).filter
          (fun m => decide (line_at idx m.1 > al)))
          = ⟨s, e⟩ :: rest.filter (fun m => decide (line_at idx m.1 > al)) := by
        simp [List.filter_cons, hel]
      have hdec : (decide (line_at idx s > al)) = true := by simp [hel]
      rw [hfil]
      simp only [replaceLoop, hafter, hcount, hdec, List.countP_cons]
      simp only [Bool.not_true, if_neg (by simp : ¬(true = false)),
        if_neg (by simp : ¬(false = true))]
      rw [ih]
      simp only [Prod.mk.injEq, true_and, if_true]
      constructor
      · omega
      · simp
    · have hfil : ((⟨s, e⟩ :: rest).filter
          (fun m => decide (line_at idx m.1 > al)))
          = rest.filter (fun m => decide (line_at idx m.1 > al)) := by
        simp [List.filter_cons, hel]
      have hdec : (decide (line_at idx s > al)) = false := by simp [hel]
      rw [hfil]
      simp only [replaceLoop, hafter, hdec, List.countP_cons]
      rw [if_pos trivial, Nat.zero_add]
      rcases hr0 : replaceLoop text o (some idx) rest out le reps 0
        with ⟨a, b, c, d⟩
      have hsh := replaceLoop_filt_shift text o (some idx) rest out le reps 1
        b a c d hr0
      rw [hsh]
      have hrest := ih out le reps
      rw [hr0] at hrest
      simp only [Prod.mk.injEq] at hrest
      obtain ⟨ha, hb, hc, hd⟩ := hrest
      simp only [Prod.mk.injEq, Bool.not_false]
      rw [if_pos trivial, if_neg (by simp : ¬((false : Bool) = true))]
      refine ⟨ha, hb, by omega, by omega⟩

/-- C5: in Replace, a match is eligible only if its starting line
(looked up in the precomputed line-start index) strictly exceeds
`after_line`: the loop replaces exactly the eligible matches,
building the same output as a run over them alone, and counts the
ineligible matches separately; and the spec's example rewrites only
the second `foo`. -/
theorem C5_after_line_eligibility :
    (∀ (text : Str) (o : ReplaceOptions) (al : Nat) (ms : List (Nat × Nat))
        (out : Str) (le reps : Nat),
      o.count = none → o.after_line = some al →
      replaceLoop text o (some (lineStarts text)) ms out le reps 0
        = ((replaceLoop text o (some (lineStarts text))
              (ms.filter (fun m => decide (line_at (lineStarts text) m.1 > al)))
              out le reps 0).1,
           (replaceLoop text o (some (lineStarts text))
              (ms.filter (fun m => decide (line_at (lineStarts text) m.1 > al)))
              out le reps 0).2.1,
           reps + ms.countP
             (fun m => decide (line_at (lineStarts text) m.1 > al)),
           ms.countP
             (fun m => !decide (line_at (lineStarts text) m.1 > al)))) ∧
    apply_replace (chars "alpha\nfoo\nbeta\nfoo\n")
        ⟨chars "foo", chars "FOO", false, none, none, some 2⟩
      = .ok (some (chars "alpha\nfoo\nbeta\nFOO\n")) :=
  ⟨fun text o al ms out le reps hc ha =>
      replaceLoop_after_line text o (lineStarts text) al hc ha ms out le reps,
    rfl⟩

/-- C5 witness: the eligibility characterisation evaluated at the
spec's example input. -/
theorem C5_after_line_eligibility_witness :
    replaceLoop (chars "alpha\nfoo\nbeta\nfoo\n")
        ⟨chars "foo", chars "FOO", false, none, none, some 2⟩
        (some (lineStarts (chars "alpha\nfoo\nbeta\nfoo\n")))
        (literalMatches (chars "alpha\nfoo\nbeta\nfoo\n") (chars "foo"))
        [] 0 0 0
      = ((replaceLoop (chars "alpha\nfoo\nbeta\nfoo\n")
            ⟨chars "foo", chars "FOO", false, none, none, some 2⟩
            (some (lineStarts (chars "alpha\nfoo\nbeta\nfoo\n")))
            ((literalMatches (chars "alpha\nfoo\nbeta\nfoo\n")
                (chars "foo")).filter
              (fun m => decide
                (line_at (lineStarts (chars "alpha\nfoo\nbeta\nfoo\n")) m.1 > 2)))
            [] 0 0 0).1,
          (replaceLoop (chars "alpha\nfoo\nbeta\nfoo\n")
            ⟨chars "foo", chars "FOO", false, none, none, some 2⟩
            (some (lineStarts (chars "alpha\nfoo\nbeta\nfoo\n")))
            ((literalMatches (chars "alpha\nfoo\nbeta\nfoo\n")
                (chars "foo")).filter
              (fun m => decide
                (line_at (lineStarts (chars "alpha\nfoo\nbeta\nfoo\n")) m.1 > 2)))
            [] 0 0 0).2.1,
          0 + (literalMatches (chars "alpha\nfoo\nbeta\nfoo\n")
              (chars "foo")).countP
            (fun m => decide
              (line_at (lineStarts (chars "alpha\nfoo\nbeta\nfoo\n")) m.1 > 2)),
          (literalMatches (chars "alpha\nfoo\nbeta\nfoo\n")
              (chars "foo")).countP
            (fun m => !decide
              (line_at (lineStarts (chars "alpha\nfoo\nbeta\nfoo\n")) m.1 > 2))) :=
  C5_after_line_eligibility.1 (chars "alpha\nfoo\nbeta\nfoo\n")
    ⟨chars "foo", chars "FOO", false, none, none, some 2⟩ 2
    (literalMatches (chars "alpha\nfoo\nbeta\nfoo\n") (chars "foo"))
    [] 0 0 rfl rfl

/-- Substring search succeeds on any string with the pattern in the
middle. -/
theorem findSubAux_isSome (pat : Str) :
    ∀ (a b : Str) (i : Nat), (findSubAux pat (a ++ (pat ++ b)) i).isSome = true := by
  intro a
  induction a with
  | nil =>
    intro b i
    have hpre : pat.isPrefixOf (pat ++ b) = true := by
      rw [List.isPrefixOf_iff_prefix]
      exact List.prefix_append pat b
    cases hpb : pat ++ b with
    | nil =>
      have hp : pat = [] := (List.append_eq_nil.mp hpb).1
      subst hp
      simp [findSubAux]
    | cons c rest =>
      rw [hpb] at hpre
      simp [findSubAux, hpre]
  | cons c a' ih =>
    intro b i
    by_cases hp : pat.isPrefixOf (c :: (a' ++ (pat ++ b))) = true
    · simp [findSubAux, hp]
    · simp only [List.cons_append, findSubAux]
      rw [if_neg (by simpa using hp)]
      exact ih b (i + 1)

/-- `contains` holds for any string with the needle in the middle. -/
theorem containsSub_middle (pat a b : Str) :
    containsSub pat (a ++ (pat ++ b)) = true := by
  unfold containsSub strFind
  exact findSubAux_isSome pat a b 0

/-- C7: newline-preserving patch application: on a CRLF-style source,
a successful application yields CRLF-style output (every newline in
the result is restored to CRLF), and the spec's example on
`alpha\r\nbeta\r\n` yields `alpha\r\nbeta2\r\n`. -/
theorem C7_patch_preserves_crlf :
    (∀ (text : Str) (hunks : List Hunk) (out : Str),
      detect_line_ending_style text = LineEndingStyle.Crlf →
      apply_patch_preserving_newlines text hunks = some out →
      '\n' ∈ out → detect_line_ending_style out = LineEndingStyle.Crlf) ∧
    apply_patch_preserving_newlines (chars "alpha\r\nbeta\r\n") [crlfHunk]
      = some (chars "alpha\r\nbeta2\r\n") := by
  constructor
  · intro text hunks out hstyle happ hnl
    unfold apply_patch_preserving_newlines at happ
    rw [hstyle] at happ
    dsimp only at happ
    cases hp : apply_patch (normalize_to_lf text) hunks with
    | none => rw [hp] at happ; exact absurd happ (by simp)
    | some patched =>
      rw [hp] at happ
      simp only [Option.map_some', Option.some.injEq] at happ
      have hnlp : '\n' ∈ patched := by
        rw [← happ] at hnl
        unfold restore_from_lf at hnl
        obtain ⟨c, hc, hcf⟩ := List.mem_flatMap.mp hnl
        by_cases hcn : c = '\n'
        · exact hcn ▸ hc
        · rw [if_neg hcn] at hcf
          exact absurd (List.mem_singleton.mp hcf).symm hcn
      obtain ⟨u, v, huv⟩ := List.append_of_mem hnlp
      have hout : out = u.flatMap
            (fun c => if c = '\n' then ['\r', '\n'] else [c]) ++
          (['\r', '\n'] ++ v.flatMap
            (fun c => if c = '\n' then ['\r', '\n'] else [c])) := by
        rw [← happ]
        unfold restore_from_lf
        rw [huv, List.flatMap_append, List.flatMap_cons]
        simp
      rw [hout]
      unfold detect_line_ending_style
      rw [containsSub_middle]
      rfl
  · rfl

/-- C7 witness: the CRLF example satisfies the hypotheses and its
output is detected as CRLF. -/
theorem C7_patch_preserves_crlf_witness :
    detect_line_ending_style (chars "alpha\r\nbeta2\r\n")
      = LineEndingStyle.Crlf :=
  C7_patch_preserves_crlf.1 (chars "alpha\r\nbeta\r\n") [crlfHunk]
    (chars "alpha\r\nbeta2\r\n") rfl rfl (by decide)

/-- A changed-run op followed by ops monotone from `(i+k, j+l)` is
monotone from `(i, j)`. -/
theorem opsMono_emitChange_append (i j k l : Nat) (rest : List DiffOp)
    (hrest : opsMono (i + k) (j + l) rest) :
    opsMono i j (emitChange i j k l ++ rest) := by
  unfold emitChange
  split_ifs with h1 h2 h3
  · simp only [List.cons_append, List.nil_append, opsMono]
    exact ⟨Nat.le_refl _, Nat.le_add_right _ _, Nat.le_refl _,
      Nat.le_add_right _ _, hrest⟩
  · have hl : l = 0 := by simp at h1 h2; omega
    subst hl
    simp only [List.cons_append, List.nil_append, opsMono]
    exact ⟨Nat.le_refl _, Nat.le_add_right _ _, Nat.le_refl _, Nat.le_refl _,
      by simpa using hrest⟩
  · have hk : k = 0 := by simp at h1 h3; omega
    subst hk
    simp only [List.cons_append, List.nil_append, opsMono]
    exact ⟨Nat.le_refl _, Nat.le_refl _, Nat.le_refl _, Nat.le_add_right _ _,
      by simpa using hrest⟩
  · have hk : k = 0 := by simp at h2; omega
    have hl : l = 0 := by simp at h3; omega
    subst hk
    subst hl
    simp only [List.nil_append]
    simpa using hrest

/-- The modelled diff walk emits a monotone op stream. -/
theorem opsWalk_mono :
    ∀ (ms old new : List Str) (i j : Nat), opsMono i j (opsWalk ms old new i j) := by
  intro ms
  induction ms with
  | nil =>
    intro old new i j
    simp only [opsWalk]
    rw [← List.append_nil (emitChange i j old.length new.length)]
    exact opsMono_emitChange_append i j _ _ [] trivial
  | cons m ms ih =>
    intro old new i j
    simp only [opsWalk]
    rcases h1 : (splitAtFirst m old).2 with _ | ⟨x, oRest⟩ <;>
      rcases h2 : (splitAtFirst m new).2 with _ | ⟨y, nRest⟩ <;>
      simp only [h1, h2]
    · rw [← List.append_nil (emitChange i j old.length new.length)]
      exact opsMono_emitChange_append i j _ _ [] trivial
    · rw [← List.append_nil (emitChange i j old.length new.length)]
      exact opsMono_emitChange_append i j _ _ [] trivial
    · rw [← List.append_nil (emitChange i j old.length new.length)]
      exact opsMono_emitChange_append i j _ _ [] trivial
    · refine opsMono_emitChange_append i j _ _ _ ?_
      simp only [opsMono]
      exact ⟨Nat.le_refl _, Nat.le_succ _, Nat.le_refl _, Nat.le_succ _,
        ih oRest nRest _ _⟩

/-- Modified spans of a monotone op stream have starts past `i`, are
well formed and pairwise strictly increasing. -/
theorem modSpans_mono :
    ∀ (ops : List DiffOp) (i j : Nat), opsMono i j ops →
      (∀ sp ∈ (ops.filterMap spanOfOp).filter
          (fun sp => decide (sp.kind = LineSpanKind.Modified)),
        i + 1 ≤ sp.start ∧ sp.start ≤ sp.endIdx) ∧
      List.Pairwise (fun a b => a.endIdx < b.start)
        ((ops.filterMap spanOfOp).filter
          (fun sp => decide (sp.kind = LineSpanKind.Modified))) := by
  intro ops
  induction ops with
  | nil =>
    intro i j _
    exact ⟨fun sp h => absurd h (by simp), List.Pairwise.nil⟩
  | cons op rest ih =>
    intro i j hm
    obtain ⟨hio, hoe, hjn, hne, hrest⟩ := hm
    have IH := ih op.oldEnd op.newEnd hrest
    rcases hop : spanOfOp op with _ | sp0
    · rw [List.filterMap_cons, hop]
      refine ⟨fun sp h => ?_, IH.2⟩
      have hb := IH.1 sp h
      exact ⟨by omega, hb.2⟩
    · have hsp : (sp0.kind = LineSpanKind.Modified ∧
          op.oldStart + 1 = sp0.start ∧ op.oldEnd = sp0.endIdx ∧
          sp0.start ≤ sp0.endIdx) ∨ sp0.kind = LineSpanKind.Added := by
        unfold spanOfOp at hop
        rcases htag : op.tag <;> rw [htag] at hop <;> dsimp only at hop
        · exact absurd hop (by simp)
        · split_ifs at hop with hg
          injection hop with hv
          subst hv
          exact Or.inl ⟨rfl, rfl, rfl, hg⟩
        · split_ifs at hop with hg
          injection hop with hv
          subst hv
          exact Or.inr rfl
        · split_ifs at hop with hg
          injection hop with hv
          subst hv
          exact Or.inl ⟨rfl, rfl, rfl, hg⟩
      rw [List.filterMap_cons, hop, List.filter_cons]
      rcases hsp with ⟨hk, hs, he, hse⟩ | hk
      · rw [if_pos (by simp [hk])]
        constructor
        · intro sp h
          rcases List.mem_cons.mp h with rfl | hmem
          · exact ⟨by omega, hse⟩
          · have hb := IH.1 sp hmem
            exact ⟨by omega, hb.2⟩
        · refine List.Pairwise.cons (fun sp hmem => ?_) IH.2
          have hb := IH.1 sp hmem
          omega
      · rw [if_neg (by simp [hk])]
        refine ⟨fun sp h => ?_, IH.2⟩
        have hb := IH.1 sp h
        exact ⟨by omega, hb.2⟩

/-- Added spans of a monotone op stream have starts past `j`, are well
formed and pairwise strictly increasing. -/
theorem addedSpans_mono :
    ∀ (ops : List DiffOp) (i j : Nat), opsMono i j ops →
      (∀ sp ∈ (ops.filterMap spanOfOp).filter
          (fun sp => decide (sp.kind = LineSpanKind.Added)),
        j + 1 ≤ sp.start ∧ sp.start ≤ sp.endIdx) ∧
      List.Pairwise (fun a b => a.endIdx < b.start)
        ((ops.filterMap spanOfOp).filter
          (fun sp => decide (sp.kind = LineSpanKind.Added))) := by
  intro ops
  induction ops with
  | nil =>
    intro i j _
    exact ⟨fun sp h => absurd h (by simp), List.Pairwise.nil⟩
  | cons op rest ih =>
    intro i j hm
    obtain ⟨hio, hoe, hjn, hne, hrest⟩ := hm
    have IH := ih op.oldEnd op.newEnd hrest
    rcases hop : spanOfOp op with _ | sp0
    · rw [List.filterMap_cons, hop]
      refine ⟨fun sp h => ?_, IH.2⟩
      have hb := IH.1 sp h
      exact ⟨by omega, hb.2⟩
    · have hsp : (sp0.kind = LineSpanKind.Added ∧
          op.newStart + 1 = sp0.start ∧ op.newEnd = sp0.endIdx ∧
          sp0.start ≤ sp0.endIdx) ∨ sp0.kind = LineSpanKind.Modified := by
        unfold spanOfOp at hop
        rcases htag : op.tag <;> rw [htag] at hop <;> dsimp only at hop
        · exact absurd hop (by simp)
        · split_ifs at hop with hg
          injection hop with hv
          subst hv
          exact Or.inr rfl
        · split_ifs at hop with hg
          injection hop with hv
          subst hv
          exact Or.inl ⟨rfl, rfl, rfl, hg⟩
        · split_ifs at hop with hg
          injection hop with hv
          subst hv
          exact Or.inr rfl
      rw [List.filterMap_cons, hop, List.filter_cons]
      rcases hsp with ⟨hk, hs, he, hse⟩ | hk
      · rw [if_pos (by simp [hk])]
        constructor
        · intro sp h
          rcases List.mem_cons.mp h with rfl | hmem
          · exact ⟨by omega, hse⟩
          · have hb := IH.1 sp hmem
            exact ⟨by omega, hb.2⟩
        · refine List.Pairwise.cons (fun sp hmem => ?_) IH.2
          have hb := IH.1 sp hmem
          omega
      · rw [if_neg (by simp [hk])]
        refine ⟨fun sp h => ?_, IH.2⟩
        have hb := IH.1 sp h
        exact ⟨by omega, hb.2⟩

/-- C3 counterexample: deleting lines 1-5 and appending a line after
the surviving line `k` yields a Modified span [1,5] (old-side lines)
and an Added span [2,2] (new-side lines) whose inclusive ranges
overlap, falsifying the claim's all-spans-disjoint-and-sorted
predicate. -/
theorem C3_spans_overlap_counterexample :
    collect_line_spans (chars "1\n2\n3\n4\n5\nk\n") (chars "k\nz\n")
      = [⟨LineSpanKind.Modified, 1, 5⟩, ⟨LineSpanKind.Added, 2, 2⟩] ∧
    spansDisjointSortedB
      (collect_line_spans (chars "1\n2\n3\n4\n5\nk\n") (chars "k\nz\n"))
      = false :=
  ⟨rfl, rfl⟩

/-- C3 (amended): within each kind the spans are well formed, pairwise
disjoint and sorted strictly ascending: Modified spans (old-side
line numbers) never overlap each other, and likewise Added spans
(new-side line numbers); spans of different kinds live in different
coordinate systems and may overlap. -/
theorem C3_spans_per_kind_sorted_disjoint :
    ∀ old new : Str,
      ((∀ sp ∈ spansOfKind LineSpanKind.Modified (collect_line_spans old new),
          sp.start ≤ sp.endIdx) ∧
        List.Pairwise (fun a b => a.endIdx < b.start)
          (spansOfKind LineSpanKind.Modified (collect_line_spans old new))) ∧
      ((∀ sp ∈ spansOfKind LineSpanKind.Added (collect_line_spans old new),
          sp.start ≤ sp.endIdx) ∧
        List.Pairwise (fun a b => a.endIdx < b.start)
          (spansOfKind LineSpanKind.Added (collect_line_spans old new))) := by
  intro old new
  have hmono := opsWalk_mono (lcs (splitInclusiveNl old) (splitInclusiveNl new))
    (splitInclusiveNl old) (splitInclusiveNl new) 0 0
  have hM := modSpans_mono
    (opsWalk (lcs (splitInclusiveNl old) (splitInclusiveNl new))
      (splitInclusiveNl old) (splitInclusiveNl new) 0 0) 0 0 hmono
  have hA := addedSpans_mono
    (opsWalk (lcs (splitInclusiveNl old) (splitInclusiveNl new))
      (splitInclusiveNl old) (splitInclusiveNl new) 0 0) 0 0 hmono
  exact ⟨⟨fun sp h => (hM.1 sp h).2, hM.2⟩, ⟨fun sp h => (hA.1 sp h).2, hA.2⟩⟩
